import Mathlib

/-!
Verification development for the Portfolio_platform Monte Carlo engine
(`main.py` and the path simulator of `app.py`).

Modelling choices:
* Python floats are modelled by real numbers `ℝ`.
* NumPy's global pseudorandom generator is modelled by a state `Rng`
  holding a stream `ℕ → ℝ` of standard-normal draws and a cursor;
  `np.random.seed s` selects stream `φ s` from a family
  `φ : ℕ → ℕ → ℝ` of seeded streams and resets the cursor, exactly
  mirroring the global-reseed semantics of the source.  All simulator
  definitions are parameterised by `φ` and thread the `Rng` state in the
  order the source consumes draws.
* Python dicts keyed by ticker are modelled as functions `String → ℝ`
  (for the mutable per-simulation dicts) or by last-occurrence lookup
  over the building list (for comprehension-built dicts).
-/

namespace PortfolioPlatform

/-- State of the global pseudorandom generator: a stream of
standard-normal draws and the position of the next draw. -/
structure Rng where
  stream : ℕ → ℝ
  pos : ℕ

/-- Draw one standard normal: `np.random.normal(loc=0.0, scale=1.0)`. -/
def Rng.next (g : Rng) : ℝ × Rng :=
  (g.stream g.pos, ⟨g.stream, g.pos + 1⟩)

/-- `np.random.seed s`: select the seeded stream and reset the cursor. -/
def seedRng (φ : ℕ → ℕ → ℝ) (s : ℕ) : Rng :=
  ⟨φ s, 0⟩

/-- The `if random_seed is not None: np.random.seed(random_seed)` prologue
shared by both simulators. -/
def reseed (φ : ℕ → ℕ → ℝ) (random_seed : Option ℕ) (g : Rng) : Rng :=
  match random_seed with
  | some s => seedRng φ s
  | none => g

/-- `np.random.normal(loc=0.0, scale=1.0, size=n)`: draw `n` consecutive
standard normals. -/
def drawN : ℕ → Rng → List ℝ × Rng
  | 0, g => ([], g)
  | n + 1, g =>
    let p := g.next
    let rest := drawN n p.2
    (p.1 :: rest.1, rest.2)

/-- `Position` dataclass of `main.py`. -/
structure Position where
  ticker : String
  value : ℝ
  return_pct : ℝ
  current_price : ℝ

/-- `Position.shares`: `value / current_price if current_price > 0 else 0.0`. -/
noncomputable def Position.shares (p : Position) : ℝ :=
  if p.current_price > 0 then p.value / p.current_price else 0

/-- `WatchItem` dataclass of `main.py`. -/
structure WatchItem where
  ticker : String
  name : String
  current_price : ℝ
  today_return_pct : ℝ
  total_return_pct : Option ℝ := none

/-- The inner loop body of `simulate_gbm_price`: one Monte Carlo path's
terminal price — draw `days` standard normals, form the daily log-returns
`drift + diffusion_std * increment`, sum them and exponentiate. -/
noncomputable def gbmTerminal (current_price drift diffusion_std : ℝ) (days : ℕ)
    (g : Rng) : ℝ × Rng :=
  let incs := drawN days g
  let log_returns := incs.1.map (fun z => drift + diffusion_std * z)
  (current_price * Real.exp log_returns.sum, incs.2)

/-- The `for i in range(n_sims)` loop of `simulate_gbm_price`. -/
noncomputable def gbmLoop (current_price drift diffusion_std : ℝ) (days : ℕ) :
    ℕ → Rng → List ℝ × Rng
  | 0, g => ([], g)
  | n + 1, g =>
    let p := gbmTerminal current_price drift diffusion_std days g
    let rest := gbmLoop current_price drift diffusion_std days n p.2
    (p.1 :: rest.1, rest.2)

/-- `simulate_gbm_price` of `main.py`: seed handling, constants
`drift = (mu - 0.5*sigma**2)*dt`, `diffusion_std = sigma*sqrt(dt)` with
`dt = 1/252`, then `n_sims` terminal prices. -/
noncomputable def simulate_gbm_price (current_price mu sigma : ℝ) (days n_sims : ℕ)
    (random_seed : Option ℕ) (φ : ℕ → ℕ → ℝ) (g0 : Rng) : List ℝ × Rng :=
  let g := reseed φ random_seed g0
  let dt : ℝ := 1 / 252
  let drift := (mu - 0.5 * sigma ^ 2) * dt
  let diffusion_std := sigma * Real.sqrt dt
  gbmLoop current_price drift diffusion_std days n_sims g

/-- `np.ndarray.mean` of a 1-d array, as used on the simulated prices. -/
noncomputable def listMean (l : List ℝ) : ℝ :=
  l.sum / l.length

/-- `portfolio_summary` of `main.py`, returning
`(total_value, weighted_return_pct)`. -/
noncomputable def portfolio_summary (positions : List Position) : ℝ × ℝ :=
  let total_value := (positions.map (fun p => p.value)).sum
  let total_return_value := (positions.map (fun p => p.value * (p.return_pct / 100))).sum
  let weighted_return_pct := if total_value > 0 then total_return_value / total_value * 100 else 0
  (total_value, weighted_return_pct)

/-- `compute_mu_from_today_return` of `main.py`. -/
noncomputable def compute_mu_from_today_return (today_return_pct : ℝ) : ℝ :=
  let mu_estimate := today_return_pct / 100 * 2
  max (min mu_estimate 0.20) (-0.05)

/-- `predict_position` of `main.py`, returning
`(expected_price, expected_return_pct)` and the advanced generator. -/
noncomputable def predict_position (pos : Position) (sigma : ℝ) (days n_sims : ℕ)
    (random_seed : Option ℕ) (φ : ℕ → ℕ → ℝ) (g : Rng) : (ℝ × ℝ) × Rng :=
  let mu := pos.return_pct / 100
  let r := simulate_gbm_price pos.current_price mu sigma days n_sims random_seed φ g
  let expected_price := listMean r.1
  let expected_return_pct :=
    if pos.current_price > 0 then (expected_price / pos.current_price - 1) * 100 else 0
  ((expected_price, expected_return_pct), r.2)

/-- The `predictions` dict of `analyse_portfolio`, built by the
`for pos in positions_list` loop in position order (insertion-ordered
association list, later entries shadowing earlier ones on lookup, as a
Python dict), threading the global generator through the calls. -/
noncomputable def analysePredictions (sigma : ℝ) (days n_sims : ℕ)
    (random_seed : Option ℕ) (φ : ℕ → ℕ → ℝ) :
    List Position → Rng → List (String × ℝ × ℝ) × Rng
  | [], g => ([], g)
  | pos :: rest, g =>
    let r := predict_position pos sigma days n_sims random_seed φ g
    let rest_r := analysePredictions sigma days n_sims random_seed φ rest r.2
    ((pos.ticker, r.1) :: rest_r.1, rest_r.2)

/-- Python-dict lookup on an insertion-ordered association list: the last
binding of a key wins. -/
def predLookup (preds : List (String × ℝ × ℝ)) (t : String) : ℝ × ℝ :=
  match preds.reverse.find? (fun e => e.1 == t) with
  | some e => e.2
  | none => (0, 0)

/-- The record returned by `analyse_portfolio`. -/
structure AnalysisResult where
  total_value : ℝ
  weighted_return_pct : ℝ
  predicted_portfolio_value : ℝ
  predicted_portfolio_return_pct : ℝ
  predictions : List (String × ℝ × ℝ)
  top_performers : List (String × ℝ)
  laggards : List (String × ℝ)

/-- `analyse_portfolio` of `main.py`. -/
noncomputable def analyse_portfolio (positions : List Position) (sigma : ℝ)
    (days n_sims : ℕ) (random_seed : Option ℕ) (φ : ℕ → ℕ → ℝ) (g : Rng) :
    AnalysisResult × Rng :=
  let summary := portfolio_summary positions
  let total_value := summary.1
  let sorted_by_return := positions.insertionSort (fun a b => b.return_pct ≤ a.return_pct)
  let top_performers := sorted_by_return.take 5
  let laggards := sorted_by_return.drop (sorted_by_return.length - 5)
  let pr := analysePredictions sigma days n_sims random_seed φ positions g
  let predicted_portfolio_value :=
    (positions.map (fun pos => pos.shares * (predLookup pr.1 pos.ticker).1)).sum
  let predicted_return_pct :=
    if total_value > 0 then (predicted_portfolio_value / total_value - 1) * 100 else 0
  (⟨total_value, summary.2, predicted_portfolio_value, predicted_return_pct, pr.1,
    top_performers.map (fun p => (p.ticker, p.return_pct)),
    laggards.map (fun p => (p.ticker, p.return_pct))⟩, pr.2)

/-- The `results` list of `analyse_watchlist` before sorting, built by the
`for item in watchlist` loop in watchlist order:
`(ticker, expected_return_pct, expected_price)`, threading the global
generator through the calls. -/
noncomputable def watchResults (sigma : ℝ) (days n_sims : ℕ)
    (random_seed : Option ℕ) (φ : ℕ → ℕ → ℝ) :
    List WatchItem → Rng → List (String × ℝ × ℝ) × Rng
  | [], g => ([], g)
  | item :: rest, g =>
    let mu := compute_mu_from_today_return item.today_return_pct
    let r := simulate_gbm_price item.current_price mu sigma days n_sims random_seed φ g
    let expected_price := listMean r.1
    let expected_return_pct :=
      if item.current_price > 0 then (expected_price / item.current_price - 1) * 100 else 0
    let rest_r := watchResults sigma days n_sims random_seed φ rest r.2
    ((item.ticker, expected_return_pct, expected_price) :: rest_r.1, rest_r.2)

/-- `analyse_watchlist` of `main.py`: the results list sorted descending by
`expected_return_pct` with a stable sort (`list.sort(key=..., reverse=True)`),
modelled by insertion sort with the reversed comparison. -/
noncomputable def analyse_watchlist (watchlist : List WatchItem) (sigma : ℝ)
    (days n_sims : ℕ) (random_seed : Option ℕ) (φ : ℕ → ℕ → ℝ) (g : Rng) :
    List (String × ℝ × ℝ) × Rng :=
  let r := watchResults sigma days n_sims random_seed φ watchlist g
  (r.1.insertionSort (fun a b => b.2.1 ≤ a.2.1), r.2)

/-- `add_positions` of `main.py`: start from a copy of `current_positions`
and append one new position per ticker found in `watchlist_map`; unknown
tickers are skipped by the `continue`. -/
def add_positions (current_positions : List Position)
    (watchlist_map : String → Option WatchItem) (tickers_to_add : List String)
    (allocation_value : ℝ) : List Position :=
  tickers_to_add.foldl (fun acc ticker =>
    match watchlist_map ticker with
    | none => acc
    | some item => acc ++ [⟨item.ticker, allocation_value, 0, item.current_price⟩])
    current_positions

/-! ### Path simulator (`_simulate_portfolio_growth_over_time_internal` of `app.py`) -/

/-- One entry of the `dca_schedule` dict: `{'amount': …, 'frequency_days': …}`. -/
structure DcaConfig where
  amount : ℝ
  frequency_days : ℕ

/-- Per-simulation mutable state: the `cumulative_log_returns` dict, the
`current_shares` dict, and the global generator. -/
structure SimState where
  clr : String → ℝ
  shares : String → ℝ
  g : Rng

/-- A dict comprehension `{pos.ticker: f(pos) for pos in positions}` read as
a total function: the last position with a given ticker wins, absent keys
default to 0 (never read by the source). -/
noncomputable def dictFromPositions (positions : List Position) (f : Position → ℝ) :
    String → ℝ :=
  fun t =>
    match positions.reverse.find? (fun p => p.ticker == t) with
    | some p => f p
    | none => 0

/-- The DCA-contribution loop of one simulated day: for each scheduled
ticker with `day % frequency_days == 0`, price the buy at
`pos.current_price * exp(cumulative_log_returns[ticker])` — the log-return
accumulated through the previous day — and add
`dca_amount / current_price` shares (0 if the price is not positive). -/
noncomputable def dcaStep (positions : List Position) (dca : List (String × DcaConfig))
    (day : ℕ) (clr : String → ℝ) (shares : String → ℝ) : String → ℝ :=
  dca.foldl (fun sh e =>
    if day % e.2.frequency_days = 0 then
      match positions.find? (fun p => p.ticker == e.1) with
      | some pos =>
        let current_price := pos.current_price * Real.exp (clr e.1)
        let shares_to_add := if current_price > 0 then e.2.amount / current_price else 0
        fun t => if t = e.1 then sh t + shares_to_add else sh t
      | none => sh
    else sh) shares

/-- The portfolio-value loop of one simulated day: per position, draw one
standard normal, update the cumulative log-return, reprice, and accumulate
`shares * price` into the day's total. -/
noncomputable def priceStep (drift diffusion : String → ℝ) (positions : List Position)
    (shares : String → ℝ) (clr0 : String → ℝ) (g0 : Rng) : ℝ × (String → ℝ) × Rng :=
  positions.foldl (fun acc pos =>
    let z := acc.2.2.next
    let daily_log_return := drift pos.ticker + diffusion pos.ticker * z.1
    let clr' : String → ℝ :=
      fun t => if t = pos.ticker then acc.2.1 pos.ticker + daily_log_return else acc.2.1 t
    let price := pos.current_price * Real.exp (clr' pos.ticker)
    (acc.1 + shares pos.ticker * price, clr', z.2)) (0, clr0, g0)

/-- One iteration of the `for day in range(1, days + 1)` loop: DCA buys
first (priced off the state entering the day), then the price evolution. -/
noncomputable def dayStep (positions : List Position) (dca : List (String × DcaConfig))
    (drift diffusion : String → ℝ) (day : ℕ) (st : SimState) : ℝ × SimState :=
  let sh := dcaStep positions dca day st.clr st.shares
  let r := priceStep drift diffusion positions sh st.clr st.g
  (r.1, ⟨r.2.1, sh, r.2.2⟩)

/-- The day loop from `day` for `n` more days, collecting the values
recorded at sample points (`if day in time_points[1:]`). -/
noncomputable def simDaysAux (positions : List Position) (dca : List (String × DcaConfig))
    (drift diffusion : String → ℝ) (tps : List ℕ) :
    ℕ → ℕ → SimState → List ℝ × SimState
  | 0, _, st => ([], st)
  | n + 1, day, st =>
    let r := dayStep positions dca drift diffusion day st
    let rest := simDaysAux positions dca drift diffusion tps n (day + 1) r.2
    ((if (tps.drop 1).contains day then [r.1] else []) ++ rest.1, rest.2)

/-- One full simulated path: the initial total value recorded at
checkpoint 0 followed by the recorded day values. -/
noncomputable def simOnePath (positions : List Position) (dca : List (String × DcaConfig))
    (drift diffusion : String → ℝ) (tps : List ℕ) (days : ℕ) (st0 : SimState) :
    List ℝ × SimState :=
  let current_total := (positions.map (fun p => p.value)).sum
  let r := simDaysAux positions dca drift diffusion tps days 1 st0
  (current_total :: r.1, r.2)

/-- The `for sim_idx in range(n_sims)` loop: each simulation restarts the
per-path dicts but the generator carries across simulations. -/
noncomputable def simPaths (positions : List Position) (dca : List (String × DcaConfig))
    (drift diffusion : String → ℝ) (tps : List ℕ) (days : ℕ)
    (clr0 sh0 : String → ℝ) : ℕ → Rng → List (List ℝ) × Rng
  | 0, g => ([], g)
  | n + 1, g =>
    let r := simOnePath positions dca drift diffusion tps days ⟨clr0, sh0, g⟩
    let rest := simPaths positions dca drift diffusion tps days clr0 sh0 n r.2.g
    (r.1 :: rest.1, rest.2)

/-- The checkpoint sequence: `sample_interval = max(1, days // 50)`,
`time_points = list(range(0, days + 1, sample_interval))`, then append
`days` when the last entry differs from it. -/
def timePoints (days : ℕ) : List ℕ :=
  let sample_interval := max 1 (days / 50)
  let base := (List.range (days / sample_interval + 1)).map (fun k => k * sample_interval)
  if base.getLast? ≠ some days then base ++ [days] else base

/-- `_simulate_portfolio_growth_over_time_internal` of `app.py`, returning
`(portfolio_paths, time_points)` and the advanced generator. -/
noncomputable def simulate_portfolio_growth_internal (positions : List Position)
    (sigma : ℝ) (days n_sims : ℕ) (random_seed : Option ℕ)
    (dca : List (String × DcaConfig)) (φ : ℕ → ℕ → ℝ) (g0 : Rng) :
    (List (List ℝ) × List ℕ) × Rng :=
  let g := reseed φ random_seed g0
  let dt : ℝ := 1 / 252
  let drift := dictFromPositions positions (fun p => (p.return_pct / 100 - 0.5 * sigma ^ 2) * dt)
  let diffusion := dictFromPositions positions (fun _ => sigma * Real.sqrt dt)
  let tps := timePoints days
  let sh0 := dictFromPositions positions (fun p => p.shares)
  let clr0 : String → ℝ := fun _ => 0
  let r := simPaths positions dca drift diffusion tps days clr0 sh0 n_sims g
  ((r.1, tps), r.2)

/-! ### Percentile layer (`create_portfolio_growth_chart` of `app.py`) -/

/-- Ascending stable sort of a column of simulated values. -/
noncomputable def sortedAsc (l : List ℝ) : List ℝ :=
  l.insertionSort (fun a b => a ≤ b)

/-- Element `i` of the ascending sort (0 past the end, never read there). -/
noncomputable def nthSorted (l : List ℝ) (i : ℕ) : ℝ :=
  (sortedAsc l).getD i 0

/-- `np.percentile(column, q)` with the default linear-interpolation
definition: `h = (n-1)*q/100`, interpolate between the sorted values at
`floor h` and the next index (clamped to `n-1`). -/
noncomputable def percentile (l : List ℝ) (q : ℝ) : ℝ :=
  let n := l.length
  let h := ((n : ℝ) - 1) * q / 100
  let i := ⌊h⌋₊
  let lo := nthSorted l i
  let hi := nthSorted l (min (i + 1) (n - 1))
  lo + (h - (i : ℝ)) * (hi - lo)

/-- Column `j` of the `[n_sims][checkpoints]` path table, as accessed by
`np.percentile(portfolio_paths, q, axis=0)`. -/
noncomputable def colAt (paths : List (List ℝ)) (j : ℕ) : List ℝ :=
  paths.map (fun row => row.getD j 0)

/-! ### Helper lemmas -/

theorem drawN_length (n : ℕ) : ∀ g : Rng, (drawN n g).1.length = n := by
  induction n with
  | zero => intro g; rfl
  | succ n ih => intro g; simp [drawN, ih]

theorem sum_map_const (l : List ℝ) (c : ℝ) :
    (l.map (fun _ => c)).sum = l.length * c := by
  induction l with
  | nil => simp
  | cons a l ih => simp [ih]; ring

theorem gbmTerminal_sigma_zero (p drift : ℝ) (days : ℕ) (g : Rng) :
    (gbmTerminal p drift 0 days g).1 = p * Real.exp (days * drift) := by
  unfold gbmTerminal
  simp only [zero_mul, add_zero]
  rw [sum_map_const, drawN_length]

theorem gbmLoop_sigma_zero (p drift : ℝ) (days : ℕ) :
    ∀ (n : ℕ) (g : Rng), (gbmLoop p drift 0 days n g).1.length = n ∧
      ∀ x ∈ (gbmLoop p drift 0 days n g).1, x = p * Real.exp (days * drift) := by
  intro n
  induction n with
  | zero => intro g; simp [gbmLoop]
  | succ n ih =>
    intro g
    simp only [gbmLoop, List.length_cons, List.mem_cons]
    refine ⟨by rw [(ih _).1], ?_⟩
    rintro x (rfl | hx)
    · exact gbmTerminal_sigma_zero p drift days g
    · exact (ih _).2 x hx

/-- C5 helper: with `sigma = 0` the drift constant is `mu / 252` and the
exponent accumulated over `days` days is `mu * days / 252`. -/
theorem simulate_gbm_price_sigma_zero (current_price mu : ℝ) (days n_sims : ℕ)
    (random_seed : Option ℕ) (φ : ℕ → ℕ → ℝ) (g : Rng) :
    (simulate_gbm_price current_price mu 0 days n_sims random_seed φ g).1.length = n_sims ∧
    ∀ x ∈ (simulate_gbm_price current_price mu 0 days n_sims random_seed φ g).1,
      x = current_price * Real.exp (mu * days / 252) := by
  unfold simulate_gbm_price
  have hdrift : (mu - 0.5 * (0 : ℝ) ^ 2) * (1 / 252) = mu / 252 := by ring
  have hdiff : (0 : ℝ) * Real.sqrt (1 / 252) = 0 := by ring
  simp only [hdrift, hdiff]
  have h := gbmLoop_sigma_zero current_price (mu / 252) days n_sims (reseed φ random_seed g)
  refine ⟨h.1, fun x hx => ?_⟩
  rw [h.2 x hx]
  congr 1
  ring

/-! ### Claim theorems -/

/-- C5: for every current_price, mu, days > 0, n_sims > 0 and any seed,
`simulate_gbm_price` with `sigma = 0` returns an array whose `n_sims`
entries are all equal to `current_price * exp (mu * days / 252)`. -/
theorem C5_sigma_zero_constant (current_price mu : ℝ) (days n_sims : ℕ)
    (hd : 0 < days) (hn : 0 < n_sims) (random_seed : Option ℕ)
    (φ : ℕ → ℕ → ℝ) (g : Rng) :
    (simulate_gbm_price current_price mu 0 days n_sims random_seed φ g).1.length = n_sims ∧
    ∀ x ∈ (simulate_gbm_price current_price mu 0 days n_sims random_seed φ g).1,
      x = current_price * Real.exp (mu * days / 252) :=
  simulate_gbm_price_sigma_zero current_price mu days n_sims random_seed φ g

/-- Witness for C5 at `current_price = 100`, `mu = 0`, `days = 1`,
`n_sims = 1`. -/
theorem C5_sigma_zero_constant_witness :
    (simulate_gbm_price 100 0 0 1 1 none (fun _ _ => 0) ⟨fun _ => 0, 0⟩).1.length = 1 ∧
    ∀ x ∈ (simulate_gbm_price 100 0 0 1 1 none (fun _ _ => 0) ⟨fun _ => 0, 0⟩).1,
      x = 100 * Real.exp (0 * (1 : ℕ) / 252) :=
  C5_sigma_zero_constant 100 0 1 1 (by norm_num) (by norm_num) none
    (fun _ _ => 0) ⟨fun _ => 0, 0⟩

/-- C7: `compute_mu_from_today_return` equals `(t/100)*2` clamped to
`[-0.05, 0.20]`, is monotone non-decreasing, always lands in
`[-0.05, 0.20]`, and maps `1000` to exactly `0.20`. -/
theorem C7_mu_heuristic :
    (∀ t : ℝ, compute_mu_from_today_return t = max (min (t / 100 * 2) 0.20) (-0.05))
    ∧ (∀ t1 t2 : ℝ, t1 ≤ t2 →
        compute_mu_from_today_return t1 ≤ compute_mu_from_today_return t2)
    ∧ (∀ t : ℝ, -0.05 ≤ compute_mu_from_today_return t
        ∧ compute_mu_from_today_return t ≤ 0.20)
    ∧ compute_mu_from_today_return 1000 = 0.20 := by
  refine ⟨fun t => rfl, ?_, ?_, ?_⟩
  · intro t1 t2 h
    unfold compute_mu_from_today_return
    have h2 : t1 / 100 * 2 ≤ t2 / 100 * 2 := by nlinarith
    exact max_le_max (min_le_min h2 le_rfl) le_rfl
  · intro t
    refine ⟨le_max_right _ _, ?_⟩
    unfold compute_mu_from_today_return
    exact max_le (min_le_right _ _) (by norm_num)
  · unfold compute_mu_from_today_return
    norm_num [min_def, max_def]

/-- Witness for C7's monotonicity hypothesis at `0 ≤ 1`. -/
theorem C7_mu_heuristic_witness :
    compute_mu_from_today_return 0 ≤ compute_mu_from_today_return 1 :=
  C7_mu_heuristic.2.1 0 1 (by norm_num)

/-- C4: every division by `current_price` or `total_value` is guarded:
non-positive `current_price` gives `shares = 0`; non-positive total value
gives `weighted_return_pct = 0` and `predicted_portfolio_return_pct = 0`;
all three are total functions, so no exception is raised. -/
theorem C4_divide_guards :
    (∀ p : Position, p.current_price ≤ 0 → p.shares = 0)
    ∧ (∀ positions : List Position, ¬ (portfolio_summary positions).1 > 0 →
        (portfolio_summary positions).2 = 0)
    ∧ (∀ (positions : List Position) (sigma : ℝ) (days n_sims : ℕ)
        (random_seed : Option ℕ) (φ : ℕ → ℕ → ℝ) (g : Rng),
        ¬ (portfolio_summary positions).1 > 0 →
        (analyse_portfolio positions sigma days n_sims random_seed φ
          g).1.predicted_portfolio_return_pct = 0) := by
  refine ⟨?_, ?_, ?_⟩
  · intro p hp
    unfold Position.shares
    rw [if_neg (not_lt.mpr hp)]
  · intro positions h
    unfold portfolio_summary at *
    simp only at h ⊢
    rw [if_neg h]
  · intro positions sigma days n_sims random_seed φ g h
    unfold analyse_portfolio
    simp only
    rw [if_neg h]

/-- Witness for C4 at a zero-price position and the empty portfolio. -/
theorem C4_divide_guards_witness :
    (Position.mk "A" 5 1 0).shares = 0
    ∧ (portfolio_summary []).2 = 0
    ∧ (analyse_portfolio [] 0.15 252 1000 none (fun _ _ => 0)
        ⟨fun _ => 0, 0⟩).1.predicted_portfolio_return_pct = 0 :=
  ⟨C4_divide_guards.1 ⟨"A", 5, 1, 0⟩ (by norm_num),
   C4_divide_guards.2.1 [] (by norm_num [portfolio_summary]),
   C4_divide_guards.2.2 [] 0.15 252 1000 none (fun _ _ => 0) ⟨fun _ => 0, 0⟩
     (by norm_num [portfolio_summary])⟩

/-- C3: with a non-`None` seed both simulators reseed the generator at
entry, so two invocations on identical inputs but arbitrary pre-existing
generator states return identical outputs. -/
theorem C3_seed_determinism :
    (∀ (current_price mu sigma : ℝ) (days n_sims : ℕ) (s : ℕ)
        (φ : ℕ → ℕ → ℝ) (g1 g2 : Rng),
        (simulate_gbm_price current_price mu sigma days n_sims (some s) φ g1).1 =
        (simulate_gbm_price current_price mu sigma days n_sims (some s) φ g2).1)
    ∧ (∀ (positions : List Position) (sigma : ℝ) (days n_sims : ℕ) (s : ℕ)
        (dca : List (String × DcaConfig)) (φ : ℕ → ℕ → ℝ) (g1 g2 : Rng),
        (simulate_portfolio_growth_internal positions sigma days n_sims (some s)
          dca φ g1).1 =
        (simulate_portfolio_growth_internal positions sigma days n_sims (some s)
          dca φ g2).1) :=
  ⟨fun _ _ _ _ _ _ _ _ _ => rfl, fun _ _ _ _ _ _ _ _ _ => rfl⟩

theorem add_positions_eq_append (tickers : List String) :
    ∀ (cur : List Position) (wmap : String → Option WatchItem) (alloc : ℝ),
      add_positions cur wmap tickers alloc =
        cur ++ tickers.filterMap (fun t =>
          (wmap t).map (fun item => ⟨item.ticker, alloc, 0, item.current_price⟩)) := by
  induction tickers with
  | nil => intro cur wmap alloc; simp [add_positions]
  | cons t ts ih =>
    intro cur wmap alloc
    simp only [add_positions, List.foldl_cons, List.filterMap_cons]
    cases h : wmap t with
    | none => simpa [h, add_positions] using ih cur wmap alloc
    | some item =>
      simp only [h, Option.map_some]
      have := ih (cur ++ [⟨item.ticker, alloc, 0, item.current_price⟩]) wmap alloc
      simpa [add_positions, List.append_assoc] using this

/-- C9: `add_positions` never mutates its input (the result is the input
list followed by the appended positions), and tickers absent from
`watchlist_map` are silently skipped; when every requested ticker is
absent the result equals `current_positions` element for element. -/
theorem C9_add_positions_frame :
    (∀ (cur : List Position) (wmap : String → Option WatchItem)
        (tickers : List String) (alloc : ℝ), ∃ appended : List Position,
        add_positions cur wmap tickers alloc = cur ++ appended)
    ∧ (∀ (cur : List Position) (wmap : String → Option WatchItem)
        (tickers : List String) (alloc : ℝ),
        (∀ t ∈ tickers, wmap t = none) →
        add_positions cur wmap tickers alloc = cur) := by
  constructor
  · intro cur wmap tickers alloc
    exact ⟨_, add_positions_eq_append tickers cur wmap alloc⟩
  · intro cur wmap tickers alloc habsent
    rw [add_positions_eq_append]
    have : (tickers.filterMap (fun t =>
        (wmap t).map (fun item =>
          (⟨item.ticker, alloc, 0, item.current_price⟩ : Position)))) = [] := by
      rw [List.filterMap_eq_nil_iff]
      intro t ht
      rw [habsent t ht]
      rfl
    rw [this, List.append_nil]

/-- Witness for C9 with one unknown ticker. -/
theorem C9_add_positions_frame_witness :
    add_positions [⟨"IBM", 28, 18, 302⟩] (fun _ => none) ["MRK"] 10 =
      [⟨"IBM", 28, 18, 302⟩] :=
  C9_add_positions_frame.2 [⟨"IBM", 28, 18, 302⟩] (fun _ => none) ["MRK"] 10
    (fun t _ => rfl)

/-- C2 counterexample: at `days = 60` the sampling interval is
`max 1 (60 // 50) = 1`, so the checkpoint sequence is `[0, 1, …, 60]` of
length 61, which exceeds 51. -/
theorem C2_length_counterexample :
    (timePoints 60).length = 61 ∧ ¬ (timePoints 60).length ≤ 51 := by
  constructor <;> decide

/-- C2 (amended): for every `days > 0` the checkpoint sequence starts at 0,
ends at `days`, is strictly increasing, and its length is at most
`days + 1`, with the bound 51 holding whenever `days ≤ 50` (the uniform
bound 51 fails for e.g. `days = 60`). -/
theorem C2_time_points_amended (days : ℕ) (hd : 0 < days) :
    (timePoints days).head? = some 0
    ∧ (timePoints days).getLast? = some days
    ∧ (timePoints days).Pairwise (· < ·)
    ∧ (timePoints days).length ≤ days + 1
    ∧ (days ≤ 50 → (timePoints days).length ≤ 51) := by
  have hI1 : 1 ≤ max 1 (days / 50) := le_max_left _ _
  set I := max 1 (days / 50) with hI
  set q := days / I with hq
  set base := (List.range (q + 1)).map (fun k => k * I) with hbase
  have htp : timePoints days =
      if base.getLast? ≠ some days then base ++ [days] else base := rfl
  have hqI : q * I ≤ days := by
    rw [hq]
    exact Nat.div_mul_le_self days I
  have hhead : base.head? = some 0 := by
    rw [hbase, List.range_succ_eq_map]
    simp
  have hlastb : base.getLast? = some (q * I) := by
    rw [hbase, List.range_succ]
    simp
  have hpw : base.Pairwise (· < ·) := by
    rw [hbase]
    exact (List.pairwise_lt_range _).map _
      (fun a b h => mul_lt_mul_of_pos_right h (lt_of_lt_of_le one_pos hI1))
  have hlen : base.length = q + 1 := by simp [hbase]
  have hmem : ∀ x ∈ base, x ≤ q * I := by
    intro x hx
    rw [hbase] at hx
    simp only [List.mem_map, List.mem_range] at hx
    obtain ⟨k, hk, rfl⟩ := hx
    exact mul_le_mul_right' (Nat.lt_succ_iff.mp hk) I
  by_cases hc : base.getLast? ≠ some days
  · rw [htp, if_pos hc]
    have hne : q * I ≠ days := fun h => hc (hlastb.trans (by rw [h]))
    have hlt : q * I < days := lt_of_le_of_ne hqI hne
    have hI2 : 2 ≤ I := by
      rcases Nat.lt_or_ge I 2 with h2 | h2
      · exfalso
        apply hne
        have hIeq : I = 1 := by omega
        rw [hIeq, mul_one, hq, hIeq, Nat.div_one]
      · exact h2
    refine ⟨?_, ?_, ?_, ?_, ?_⟩
    · obtain ⟨t, ht⟩ : ∃ t, base = 0 :: t := by
        cases hb : base with
        | nil => rw [hb] at hhead; simp at hhead
        | cons a t =>
          rw [hb] at hhead
          simp only [List.head?_cons, Option.some.injEq] at hhead
          exact ⟨t, by rw [hhead]⟩
      rw [ht]
      rfl
    · simp
    · rw [List.pairwise_append]
      refine ⟨hpw, List.pairwise_singleton _ _, ?_⟩
      intro x hx y hy
      simp only [List.mem_singleton] at hy
      subst hy
      exact lt_of_le_of_lt (hmem x hx) hlt
    · rw [List.length_append, hlen]
      have hq1 : q + 1 ≤ days := by
        rcases Nat.eq_zero_or_pos q with h0 | hpos
        · omega
        · have h2q : q + 1 ≤ q * I := by
            calc q + 1 ≤ q * 2 := by omega
            _ ≤ q * I := Nat.mul_le_mul_left q hI2
          have := lt_of_le_of_lt h2q hlt
          omega
      simp only [List.length_cons, List.length_nil]
      omega
    · intro h50
      exfalso
      have hd50 : days / 50 ≤ 1 := by
        calc days / 50 ≤ 50 / 50 := Nat.div_le_div_right h50
        _ = 1 := by norm_num
      have : I ≤ 1 := by
        rw [hI]
        exact max_le le_rfl hd50
      omega
  · rw [htp, if_neg hc]
    push_neg at hc
    refine ⟨hhead, hc, hpw, ?_, ?_⟩
    · rw [hlen]
      have : q ≤ days := by
        rw [hq]
        exact Nat.div_le_self days I
      omega
    · intro h50
      have hd50 : days / 50 ≤ 1 := by
        calc days / 50 ≤ 50 / 50 := Nat.div_le_div_right h50
        _ = 1 := by norm_num
      have hIeq : I = 1 := by
        rw [hI]
        exact le_antisymm (max_le le_rfl hd50) hI1
      rw [hlen, hq, hIeq, Nat.div_one]
      omega

/-- Witness for C2's amended statement at `days = 10`. -/
theorem C2_time_points_amended_witness :
    (timePoints 10).head? = some 0
    ∧ (timePoints 10).getLast? = some 10
    ∧ (timePoints 10).Pairwise (· < ·)
    ∧ (timePoints 10).length ≤ 11
    ∧ (10 ≤ 50 → (timePoints 10).length ≤ 51) :=
  C2_time_points_amended 10 (by norm_num)

/-! ### Stability of the descending sort -/

theorem filter_orderedInsert_pos {α : Type} (r : α → α → Prop) [DecidableRel r]
    (p : α → Bool) (x : α) (hx : p x = true) :
    ∀ l : List α, (∀ y ∈ l, p y = true → r x y) →
      (l.orderedInsert r x).filter p = x :: l.filter p := by
  intro l
  induction l with
  | nil => intro _; simp [List.orderedInsert, hx]
  | cons b l ih =>
    intro hrel
    rw [List.orderedInsert]
    by_cases hrb : r x b
    · rw [if_pos hrb, List.filter_cons_of_pos hx]
    · rw [if_neg hrb]
      have hpb : p b = false := by
        cases hb : p b with
        | true => exact absurd (hrel b (List.mem_cons_self b l) hb) hrb
        | false => rfl
      rw [List.filter_cons_of_neg (by rw [hpb]; exact Bool.false_ne_true),
        List.filter_cons_of_neg (by rw [hpb]; exact Bool.false_ne_true)]
      exact ih (fun y hy => hrel y (List.mem_cons_of_mem b hy))

theorem filter_orderedInsert_neg {α : Type} (r : α → α → Prop) [DecidableRel r]
    (p : α → Bool) (x : α) (hx : p x = false) :
    ∀ l : List α, (l.orderedInsert r x).filter p = l.filter p := by
  intro l
  induction l with
  | nil => simp [List.orderedInsert, hx]
  | cons b l ih =>
    rw [List.orderedInsert]
    by_cases hrb : r x b
    · rw [if_pos hrb, List.filter_cons_of_neg (by rw [hx]; exact Bool.false_ne_true)]
    · rw [if_neg hrb]
      cases hb : p b with
      | true =>
        rw [List.filter_cons_of_pos hb, List.filter_cons_of_pos hb, ih]
      | false =>
        rw [List.filter_cons_of_neg (by rw [hb]; exact Bool.false_ne_true),
          List.filter_cons_of_neg (by rw [hb]; exact Bool.false_ne_true), ih]

/-- Insertion sort is stable: filtering on any class of keys on which the
relation always holds returns those elements in their original order. -/
theorem filter_insertionSort {α : Type} (r : α → α → Prop) [DecidableRel r]
    (p : α → Bool) (hp : ∀ a b : α, p a = true → p b = true → r a b) :
    ∀ l : List α, (l.insertionSort r).filter p = l.filter p := by
  intro l
  induction l with
  | nil => rfl
  | cons x l ih =>
    rw [List.insertionSort]
    cases hx : p x with
    | true =>
      rw [filter_orderedInsert_pos r p x hx _
        (fun y hy hpy => hp x y hx hpy), ih, List.filter_cons_of_pos hx]
    | false =>
      rw [filter_orderedInsert_neg r p x hx, ih,
        List.filter_cons_of_neg (by rw [hx]; exact Bool.false_ne_true)]

theorem watchResults_length (sigma : ℝ) (days n_sims : ℕ)
    (random_seed : Option ℕ) (φ : ℕ → ℕ → ℝ) :
    ∀ (watchlist : List WatchItem) (g : Rng),
      (watchResults sigma days n_sims random_seed φ watchlist g).1.length
        = watchlist.length := by
  intro watchlist
  induction watchlist with
  | nil => intro g; rfl
  | cons item rest ih =>
    intro g
    simp only [watchResults, List.length_cons]
    rw [ih]

/-- C6: `analyse_watchlist` returns one tuple per input item, sorted in
descending order of `expected_return_pct`, and the sort is stable: the
tuples carrying any fixed `expected_return_pct` value appear in the same
order as in the unsorted results list built in input order. -/
theorem C6_watchlist_ranking (watchlist : List WatchItem) (sigma : ℝ)
    (days n_sims : ℕ) (random_seed : Option ℕ) (φ : ℕ → ℕ → ℝ) (g : Rng) :
    (analyse_watchlist watchlist sigma days n_sims random_seed φ g).1.length
      = watchlist.length
    ∧ (analyse_watchlist watchlist sigma days n_sims random_seed φ g).1.Pairwise
        (fun a b => b.2.1 ≤ a.2.1)
    ∧ ∀ k : ℝ,
        (analyse_watchlist watchlist sigma days n_sims random_seed φ g).1.filter
            (fun e => decide (e.2.1 = k))
          = (watchResults sigma days n_sims random_seed φ watchlist g).1.filter
              (fun e => decide (e.2.1 = k)) := by
  haveI : IsTotal (String × ℝ × ℝ) (fun a b => b.2.1 ≤ a.2.1) :=
    ⟨fun a b => le_total b.2.1 a.2.1⟩
  haveI : IsTrans (String × ℝ × ℝ) (fun a b => b.2.1 ≤ a.2.1) :=
    ⟨fun _ _ _ hab hbc => le_trans hbc hab⟩
  refine ⟨?_, ?_, ?_⟩
  · unfold analyse_watchlist
    simp only [List.length_insertionSort]
    exact watchResults_length sigma days n_sims random_seed φ watchlist g
  · exact List.sorted_insertionSort _ _
  · intro k
    unfold analyse_watchlist
    simp only
    exact filter_insertionSort _ _
      (fun a b ha hb => by
        have ha' : a.2.1 = k := of_decide_eq_true ha
        have hb' : b.2.1 = k := of_decide_eq_true hb
        rw [ha', hb']) _

/-! ### Seeded predictions in `analyse_portfolio` -/

/-- With a concrete seed, `simulate_gbm_price` reseeds the global
generator at entry, so its output ignores the incoming generator state. -/
theorem predict_position_seeded (pos : Position) (sigma : ℝ) (days n_sims : ℕ)
    (s : ℕ) (φ : ℕ → ℕ → ℝ) (g g' : Rng) :
    (predict_position pos sigma days n_sims (some s) φ g).1
      = (predict_position pos sigma days n_sims (some s) φ g').1 := rfl

theorem analysePredictions_seeded (sigma : ℝ) (days n_sims : ℕ) (s : ℕ)
    (φ : ℕ → ℕ → ℝ) (g0 : Rng) :
    ∀ (positions : List Position) (g : Rng),
      (analysePredictions sigma days n_sims (some s) φ positions g).1
        = positions.map (fun pos =>
            (pos.ticker, (predict_position pos sigma days n_sims (some s) φ g0).1)) := by
  intro positions
  induction positions with
  | nil => intro g; rfl
  | cons pos rest ih =>
    intro g
    simp only [analysePredictions, List.map_cons]
    rw [ih, predict_position_seeded pos sigma days n_sims s φ g g0]

/-- C10: with a non-`None` seed, every position's prediction inside
`analyse_portfolio` is computed from the identically reseeded stream, so
the predictions list is a pure map over the positions, and two positions
with equal `current_price` and equal `return_pct` receive identical
`(expected_price, expected_return_pct)`. -/
theorem C10_seeded_predictions (positions : List Position) (sigma : ℝ)
    (days n_sims : ℕ) (s : ℕ) (φ : ℕ → ℕ → ℝ) (g : Rng) :
    (analyse_portfolio positions sigma days n_sims (some s) φ g).1.predictions
        = positions.map (fun pos =>
            (pos.ticker, (predict_position pos sigma days n_sims (some s) φ g).1))
    ∧ ∀ p1 ∈ positions, ∀ p2 ∈ positions,
        p1.current_price = p2.current_price → p1.return_pct = p2.return_pct →
        (predict_position p1 sigma days n_sims (some s) φ g).1
          = (predict_position p2 sigma days n_sims (some s) φ g).1 := by
  constructor
  · exact analysePredictions_seeded sigma days n_sims s φ g positions g
  · intro p1 _ p2 _ hprice hret
    unfold predict_position simulate_gbm_price
    simp only [hprice, hret]

/-- Witness for C10 with two positions sharing price and return. -/
theorem C10_seeded_predictions_witness :
    ((analyse_portfolio [⟨"A", 1000, 2, 50⟩, ⟨"B", 600, 2, 50⟩] 0.15 252 10
        (some 42) (fun _ _ => 0) ⟨fun _ => 0, 0⟩).1.predictions
      = [⟨"A", 1000, 2, 50⟩, ⟨"B", 600, 2, 50⟩].map (fun pos =>
          (pos.ticker, (predict_position pos 0.15 252 10 (some 42) (fun _ _ => 0)
            ⟨fun _ => 0, 0⟩).1)))
    ∧ (predict_position ⟨"A", 1000, 2, 50⟩ 0.15 252 10 (some 42) (fun _ _ => 0)
          ⟨fun _ => 0, 0⟩).1
        = (predict_position ⟨"B", 600, 2, 50⟩ 0.15 252 10 (some 42) (fun _ _ => 0)
          ⟨fun _ => 0, 0⟩).1 :=
  ⟨(C10_seeded_predictions [⟨"A", 1000, 2, 50⟩, ⟨"B", 600, 2, 50⟩] 0.15 252 10 42
      (fun _ _ => 0) ⟨fun _ => 0, 0⟩).1,
   (C10_seeded_predictions [⟨"A", 1000, 2, 50⟩, ⟨"B", 600, 2, 50⟩] 0.15 252 10 42
      (fun _ _ => 0) ⟨fun _ => 0, 0⟩).2
     ⟨"A", 1000, 2, 50⟩ (by simp) ⟨"B", 600, 2, 50⟩ (by simp) rfl rfl⟩

/-! ### Percentile monotonicity -/

theorem sortedAsc_length (l : List ℝ) : (sortedAsc l).length = l.length :=
  List.length_insertionSort _ _

theorem sortedAsc_sorted (l : List ℝ) :
    List.Sorted (fun a b : ℝ => a ≤ b) (sortedAsc l) := by
  haveI : IsTotal ℝ (fun a b : ℝ => a ≤ b) := ⟨fun a b => le_total a b⟩
  haveI : IsTrans ℝ (fun a b : ℝ => a ≤ b) := ⟨fun _ _ _ => le_trans⟩
  exact List.sorted_insertionSort _ _

theorem nthSorted_mono (l : List ℝ) {i j : ℕ} (hij : i ≤ j) (hj : j < l.length) :
    nthSorted l i ≤ nthSorted l j := by
  have hlen := sortedAsc_length l
  rcases eq_or_lt_of_le hij with rfl | hlt
  · exact le_refl _
  · have hi' : i < (sortedAsc l).length := by omega
    have hj' : j < (sortedAsc l).length := by omega
    unfold nthSorted
    rw [List.getD_eq_get _ _ hi', List.getD_eq_get _ _ hj']
    exact (sortedAsc_sorted l).rel_get_of_lt (Fin.mk_lt_mk.mpr hlt)

/-- The linear-interpolation percentile is monotone in the rank argument
over `[0, 100]`. -/
theorem percentile_mono (l : List ℝ) (hl : l ≠ []) {q1 q2 : ℝ}
    (h0 : 0 ≤ q1) (h12 : q1 ≤ q2) (h100 : q2 ≤ 100) :
    percentile l q1 ≤ percentile l q2 := by
  have hn : 1 ≤ l.length := List.length_pos.mpr hl
  set n := l.length with hndef
  have hcast : ((n - 1 : ℕ) : ℝ) = (n : ℝ) - 1 := by
    push_cast [hn]
    ring
  set h1 := ((n : ℝ) - 1) * q1 / 100 with hh1
  set h2 := ((n : ℝ) - 1) * q2 / 100 with hh2
  have hn1 : (0 : ℝ) ≤ (n : ℝ) - 1 := by
    have : (1 : ℝ) ≤ (n : ℝ) := by exact_mod_cast hn
    linarith
  have h1nn : 0 ≤ h1 := by
    rw [hh1]
    exact div_nonneg (mul_nonneg hn1 h0) (by norm_num)
  have h12' : h1 ≤ h2 := by
    rw [hh1, hh2]
    gcongr
  have h2top : h2 ≤ (n : ℝ) - 1 := by
    rw [hh2]
    calc ((n : ℝ) - 1) * q2 / 100 ≤ ((n : ℝ) - 1) * 100 / 100 := by gcongr
    _ = (n : ℝ) - 1 := by ring
  set i1 := ⌊h1⌋₊ with hi1def
  set i2 := ⌊h2⌋₊ with hi2def
  have hi12 : i1 ≤ i2 := Nat.floor_mono h12'
  have hi2top : i2 ≤ n - 1 := Nat.floor_le_of_le (by rw [hcast]; exact h2top)
  have hi1top : i1 ≤ n - 1 := le_trans hi12 hi2top
  have hγ1lo : (i1 : ℝ) ≤ h1 := Nat.floor_le h1nn
  have hγ2lo : (i2 : ℝ) ≤ h2 := Nat.floor_le (le_trans h1nn h12')
  have hγ1hi : h1 < (i1 : ℝ) + 1 := Nat.lt_floor_add_one h1
  have hγ2hi : h2 < (i2 : ℝ) + 1 := Nat.lt_floor_add_one h2
  have hidx1 : min (i1 + 1) (n - 1) < n := by omega
  have hidx2 : min (i2 + 1) (n - 1) < n := by omega
  have hlohi1 : nthSorted l i1 ≤ nthSorted l (min (i1 + 1) (n - 1)) :=
    nthSorted_mono l (by omega) hidx1
  have hlohi2 : nthSorted l i2 ≤ nthSorted l (min (i2 + 1) (n - 1)) :=
    nthSorted_mono l (by omega) hidx2
  have hp1 : percentile l q1 = nthSorted l i1
      + (h1 - (i1 : ℝ)) * (nthSorted l (min (i1 + 1) (n - 1)) - nthSorted l i1) := rfl
  have hp2 : percentile l q2 = nthSorted l i2
      + (h2 - (i2 : ℝ)) * (nthSorted l (min (i2 + 1) (n - 1)) - nthSorted l i2) := rfl
  rcases eq_or_lt_of_le hi12 with heq | hlt
  · rw [hp1, hp2, ← heq]
    have hd : 0 ≤ nthSorted l (min (i1 + 1) (n - 1)) - nthSorted l i1 := by
      linarith [hlohi1]
    have heq' : (i2 : ℝ) = (i1 : ℝ) := by rw [← heq]
    have hmul : 0 ≤ (h2 - h1)
        * (nthSorted l (min (i1 + 1) (n - 1)) - nthSorted l i1) :=
      mul_nonneg (by linarith) hd
    nlinarith [hmul]
  · have hstep : min (i1 + 1) (n - 1) ≤ i2 := by omega
    have hupper : percentile l q1 ≤ nthSorted l (min (i1 + 1) (n - 1)) := by
      rw [hp1]
      have hγle : h1 - (i1 : ℝ) ≤ 1 := by linarith
      have hγge : 0 ≤ h1 - (i1 : ℝ) := by linarith
      nlinarith [hlohi1]
    have hmid : nthSorted l (min (i1 + 1) (n - 1)) ≤ nthSorted l i2 :=
      nthSorted_mono l hstep (by omega)
    have hlower : nthSorted l i2 ≤ percentile l q2 := by
      rw [hp2]
      have hγge : 0 ≤ h2 - (i2 : ℝ) := by linarith
      nlinarith [hlohi2]
    exact le_trans hupper (le_trans hmid hlower)

/-- C8: for every path table and checkpoint column, the percentile bands
are ordered: p5 ≤ p25 ≤ p50 ≤ p75 ≤ p95. -/
theorem C8_percentile_band_ordering (paths : List (List ℝ)) (j : ℕ)
    (hp : paths ≠ []) :
    percentile (colAt paths j) 5 ≤ percentile (colAt paths j) 25
    ∧ percentile (colAt paths j) 25 ≤ percentile (colAt paths j) 50
    ∧ percentile (colAt paths j) 50 ≤ percentile (colAt paths j) 75
    ∧ percentile (colAt paths j) 75 ≤ percentile (colAt paths j) 95 := by
  have hcol : colAt paths j ≠ [] := by
    unfold colAt
    simpa using hp
  exact ⟨percentile_mono _ hcol (by norm_num) (by norm_num) (by norm_num),
    percentile_mono _ hcol (by norm_num) (by norm_num) (by norm_num),
    percentile_mono _ hcol (by norm_num) (by norm_num) (by norm_num),
    percentile_mono _ hcol (by norm_num) (by norm_num) (by norm_num)⟩

/-- Witness for C8 on the one-path, one-checkpoint table `[[1]]`. -/
theorem C8_percentile_band_ordering_witness :
    percentile (colAt [[(1 : ℝ)]] 0) 5 ≤ percentile (colAt [[(1 : ℝ)]] 0) 25
    ∧ percentile (colAt [[(1 : ℝ)]] 0) 25 ≤ percentile (colAt [[(1 : ℝ)]] 0) 50
    ∧ percentile (colAt [[(1 : ℝ)]] 0) 50 ≤ percentile (colAt [[(1 : ℝ)]] 0) 75
    ∧ percentile (colAt [[(1 : ℝ)]] 0) 75 ≤ percentile (colAt [[(1 : ℝ)]] 0) 95 :=
  C8_percentile_band_ordering [[(1 : ℝ)]] 0 (List.cons_ne_nil _ _)

/-! ### The DCA scenario of C1 -/

theorem timePoints_60 : timePoints 60 = List.range 61 := by decide

theorem mem_tail_timePoints_60 (day : ℕ) :
    ((timePoints 60).drop 1).contains day = true ↔ 1 ≤ day ∧ day ≤ 60 := by
  rw [timePoints_60, List.range_succ_eq_map]
  simp only [List.drop_succ_cons, List.drop_zero, List.elem_iff, List.mem_map,
    List.mem_range]
  constructor
  · rintro ⟨k, hk, rfl⟩
    omega
  · rintro ⟨h1, h2⟩
    exact ⟨day - 1, by omega, by omega⟩

/-- A scheduled buy prices the contribution at
`current_price * exp(cumulative_log_return)` with the log-return of the
state entering the day, i.e. the one accumulated through the previous
day. -/
theorem dcaStep_single (pos : Position) (cfg : DcaConfig) (day : ℕ)
    (clr sh : String → ℝ) (hday : day % cfg.frequency_days = 0)
    (hpos : 0 < pos.current_price * Real.exp (clr pos.ticker)) :
    dcaStep [pos] [(pos.ticker, cfg)] day clr sh pos.ticker
      = sh pos.ticker + cfg.amount / (pos.current_price * Real.exp (clr pos.ticker)) := by
  unfold dcaStep
  simp only [List.foldl_cons, List.foldl_nil]
  rw [if_pos hday]
  have hfind : [pos].find? (fun p => p.ticker == pos.ticker) = some pos := by
    simp [List.find?]
  rw [hfind]
  simp only
  rw [if_pos hpos]
  simp

theorem dcaStep_single_skip (pos : Position) (cfg : DcaConfig) (day : ℕ)
    (clr sh : String → ℝ) (hday : ¬ day % cfg.frequency_days = 0) :
    dcaStep [pos] [(pos.ticker, cfg)] day clr sh = sh := by
  unfold dcaStep
  simp only [List.foldl_cons, List.foldl_nil]
  rw [if_neg hday]

/-- In the C1 scenario (price 100, zero cumulative log-return) a buy of
$100 every 30 days adds exactly one share on scheduled days. -/
theorem dcaStep_scenario (day : ℕ) (clr sh : String → ℝ) (hclr : clr "A" = 0) :
    dcaStep [⟨"A", 1000, 0, 100⟩] [("A", ⟨100, 30⟩)] day clr sh "A"
      = sh "A" + (if day % 30 = 0 then 1 else 0) := by
  by_cases hday : day % 30 = 0
  · rw [if_pos hday]
    have h := dcaStep_single ⟨"A", 1000, 0, 100⟩ ⟨100, 30⟩ day clr sh hday
      (by simp only; rw [hclr, Real.exp_zero]; norm_num)
    simp only at h
    rw [h, hclr, Real.exp_zero]
    norm_num
  · rw [if_neg hday]
    have h := dcaStep_single_skip ⟨"A", 1000, 0, 100⟩ ⟨100, 30⟩ day clr sh hday
    simp only at h
    rw [h]
    simp

/-- In the C1 scenario the price evolution leaves the cumulative
log-return at 0 (drift and diffusion vanish) and values the portfolio at
`shares * 100`. -/
theorem priceStep_scenario (drift diffusion : String → ℝ) (hdr : drift "A" = 0)
    (hdf : diffusion "A" = 0) (sh clr : String → ℝ) (hclr : clr "A" = 0) (g : Rng) :
    (priceStep drift diffusion [⟨"A", 1000, 0, 100⟩] sh clr g).1 = sh "A" * 100
    ∧ (priceStep drift diffusion [⟨"A", 1000, 0, 100⟩] sh clr g).2.1 "A" = 0 := by
  unfold priceStep
  simp only [List.foldl_cons, List.foldl_nil]
  constructor
  · simp [hdr, hdf, hclr, Real.exp_zero]
  · simp [hdr, hdf, hclr]

theorem dayStep_scenario (drift diffusion : String → ℝ) (hdr : drift "A" = 0)
    (hdf : diffusion "A" = 0) (day : ℕ) (st : SimState) (hclr : st.clr "A" = 0) :
    (dayStep [⟨"A", 1000, 0, 100⟩] [("A", ⟨100, 30⟩)] drift diffusion day st).1
        = (st.shares "A" + (if day % 30 = 0 then 1 else 0)) * 100
    ∧ (dayStep [⟨"A", 1000, 0, 100⟩] [("A", ⟨100, 30⟩)] drift diffusion day st).2.clr "A" = 0
    ∧ (dayStep [⟨"A", 1000, 0, 100⟩] [("A", ⟨100, 30⟩)] drift diffusion day st).2.shares "A"
        = st.shares "A" + (if day % 30 = 0 then 1 else 0) := by
  have hdca := dcaStep_scenario day st.clr st.shares hclr
  have hps := priceStep_scenario drift diffusion hdr hdf
    (dcaStep [⟨"A", 1000, 0, 100⟩] [("A", ⟨100, 30⟩)] day st.clr st.shares)
    st.clr hclr st.g
  refine ⟨?_, ?_, ?_⟩
  · show (priceStep drift diffusion [⟨"A", 1000, 0, 100⟩]
        (dcaStep [⟨"A", 1000, 0, 100⟩] [("A", ⟨100, 30⟩)] day st.clr st.shares)
        st.clr st.g).1 = _
    rw [hps.1, hdca]
  · exact hps.2
  · exact hdca

theorem div30_step (day : ℕ) (h : 1 ≤ day) :
    (day - 1) / 30 + (if day % 30 = 0 then 1 else 0) = day / 30 := by
  split_ifs with hm <;> omega

/-- The C1 scenario day loop: cumulative log-return stays 0 (so the
simulated price is 100 at every day), the DCA buys add one share at each
multiple of 30, and every day in `[day, day + n)` records
`(10 + d / 30) * 100`. -/
theorem simDays_scenario (drift diffusion : String → ℝ) (hdr : drift "A" = 0)
    (hdf : diffusion "A" = 0) :
    ∀ (n day : ℕ) (st : SimState), st.clr "A" = 0 →
      st.shares "A" = ((10 + (day - 1) / 30 : ℕ) : ℝ) → 1 ≤ day → day + n ≤ 61 →
      (simDaysAux [⟨"A", 1000, 0, 100⟩] [("A", ⟨100, 30⟩)] drift diffusion
          (timePoints 60) n day st).1
        = (List.range n).map (fun k => ((10 + (day + k) / 30 : ℕ) : ℝ) * 100)
      ∧ (simDaysAux [⟨"A", 1000, 0, 100⟩] [("A", ⟨100, 30⟩)] drift diffusion
          (timePoints 60) n day st).2.clr "A" = 0
      ∧ (simDaysAux [⟨"A", 1000, 0, 100⟩] [("A", ⟨100, 30⟩)] drift diffusion
          (timePoints 60) n day st).2.shares "A"
          = ((10 + (day + n - 1) / 30 : ℕ) : ℝ) := by
  intro n
  induction n with
  | zero =>
    intro day st h1 h2 h3 h4
    exact ⟨rfl, h1, by simpa using h2⟩
  | succ n ih =>
    intro day st hclr hsh hday hle
    have hstep := dayStep_scenario drift diffusion hdr hdf day st hclr
    have hunf : simDaysAux [⟨"A", 1000, 0, 100⟩] [("A", ⟨100, 30⟩)] drift diffusion
        (timePoints 60) (n + 1) day st
        = ((if ((timePoints 60).drop 1).contains day then
              [(dayStep [⟨"A", 1000, 0, 100⟩] [("A", ⟨100, 30⟩)] drift diffusion day st).1]
            else [])
            ++ (simDaysAux [⟨"A", 1000, 0, 100⟩] [("A", ⟨100, 30⟩)] drift diffusion
                (timePoints 60) n (day + 1)
                (dayStep [⟨"A", 1000, 0, 100⟩] [("A", ⟨100, 30⟩)] drift diffusion day st).2).1,
          (simDaysAux [⟨"A", 1000, 0, 100⟩] [("A", ⟨100, 30⟩)] drift diffusion
              (timePoints 60) n (day + 1)
              (dayStep [⟨"A", 1000, 0, 100⟩] [("A", ⟨100, 30⟩)] drift diffusion day st).2).2) := rfl
    have hmem : ((timePoints 60).drop 1).contains day = true :=
      (mem_tail_timePoints_60 day).mpr ⟨hday, by omega⟩
    have hshstep : (dayStep [⟨"A", 1000, 0, 100⟩] [("A", ⟨100, 30⟩)] drift diffusion
        day st).2.shares "A" = ((10 + day / 30 : ℕ) : ℝ) := by
      rw [hstep.2.2, hsh]
      split_ifs with hm
      · have h30 : (10 + (day - 1) / 30 + 1 : ℕ) = 10 + day / 30 := by omega
        exact_mod_cast h30
      · rw [add_zero]
        exact_mod_cast (by omega : (10 + (day - 1) / 30 : ℕ) = 10 + day / 30)
    have hrest := ih (day + 1)
      (dayStep [⟨"A", 1000, 0, 100⟩] [("A", ⟨100, 30⟩)] drift diffusion day st).2
      hstep.2.1 (by rw [hshstep]; norm_num) (by omega) (by omega)
    refine ⟨?_, ?_, ?_⟩
    · rw [hunf]
      simp only [if_pos hmem]
      rw [hrest.1, hstep.1, hsh]
      have hval : (((10 + (day - 1) / 30 : ℕ) : ℝ) + (if day % 30 = 0 then 1 else 0)) * 100
          = ((10 + day / 30 : ℕ) : ℝ) * 100 := by
        split_ifs with hm
        · have h30 : (10 + (day - 1) / 30 + 1 : ℕ) = 10 + day / 30 := by omega
          have : ((10 + (day - 1) / 30 : ℕ) : ℝ) + 1 = ((10 + day / 30 : ℕ) : ℝ) := by
            exact_mod_cast h30
          rw [this]
        · rw [add_zero]
          congr 1
          exact_mod_cast (by omega : (10 + (day - 1) / 30 : ℕ) = 10 + day / 30)
      rw [hval, List.singleton_append, List.range_succ_eq_map, List.map_cons,
        List.map_map]
      congr 1
      apply List.map_congr_left
      intro k _
      simp only [Function.comp_apply]
      rw [show day + 1 + k = day + (k + 1) from by omega]
    · rw [hunf]
      exact hrest.2.1
    · rw [hunf]
      simp only
      rw [hrest.2.2]
      exact_mod_cast
        (by omega : (10 + (day + 1 + n - 1) / 30 : ℕ) = 10 + (day + (n + 1) - 1) / 30)

theorem simOnePath_snd (positions : List Position) (dca : List (String × DcaConfig))
    (drift diffusion : String → ℝ) (tps : List ℕ) (days : ℕ) (st0 : SimState) :
    (simOnePath positions dca drift diffusion tps days st0).2
      = (simDaysAux positions dca drift diffusion tps days 1 st0).2 := rfl

/-- C1: in a day step, a scheduled DCA buy is priced at
`current_price * exp` of the cumulative log-return entering the day
(i.e. accumulated through the previous day), while the same day's normal
increment only enters the cumulative log-return afterwards; and in the
concrete scenario (one position value 1000 / price 100, DCA $100 every 30
days, sigma = 0, return 0, days = 60, n_sims = 1) the price stays 100, the
paths table is `[[1000, …, (10 + d/30)·100, …]]` over checkpoints
`0, …, 60`, the day-60 checkpoint equals 1200, and the shares held after
day 60 equal 12. -/
theorem C1_dca_pricing_and_scenario :
    (∀ (pos : Position) (cfg : DcaConfig) (drift diffusion : String → ℝ)
        (day : ℕ) (st : SimState),
        day % cfg.frequency_days = 0 →
        0 < pos.current_price * Real.exp (st.clr pos.ticker) →
        (dayStep [pos] [(pos.ticker, cfg)] drift diffusion day st).2.shares pos.ticker
            = st.shares pos.ticker
              + cfg.amount / (pos.current_price * Real.exp (st.clr pos.ticker))
          ∧ (dayStep [pos] [(pos.ticker, cfg)] drift diffusion day st).2.clr pos.ticker
            = st.clr pos.ticker
              + (drift pos.ticker + diffusion pos.ticker * st.g.stream st.g.pos))
    ∧ (∀ (random_seed : Option ℕ) (φ : ℕ → ℕ → ℝ) (g : Rng),
        (simulate_portfolio_growth_internal [⟨"A", 1000, 0, 100⟩] 0 60 1 random_seed
            [("A", ⟨100, 30⟩)] φ g).1
          = ([(1000 : ℝ) :: (List.range 60).map
                (fun k => ((10 + (k + 1) / 30 : ℕ) : ℝ) * 100)], List.range 61)
        ∧ (((simulate_portfolio_growth_internal [⟨"A", 1000, 0, 100⟩] 0 60 1 random_seed
              [("A", ⟨100, 30⟩)] φ g).1.1.headD []).getD 60 0 = 1200)
        ∧ (simOnePath [⟨"A", 1000, 0, 100⟩] [("A", ⟨100, 30⟩)]
              (dictFromPositions [⟨"A", 1000, 0, 100⟩]
                (fun p => (p.return_pct / 100 - 0.5 * (0 : ℝ) ^ 2) * (1 / 252)))
              (dictFromPositions [⟨"A", 1000, 0, 100⟩]
                (fun _ => (0 : ℝ) * Real.sqrt (1 / 252)))
              (timePoints 60) 60
              ⟨fun _ => 0, dictFromPositions [⟨"A", 1000, 0, 100⟩] (fun p => p.shares),
                reseed φ random_seed g⟩).2.shares "A" = 12) := by
  constructor
  · intro pos cfg drift diffusion day st hday hpos
    constructor
    · show dcaStep [pos] [(pos.ticker, cfg)] day st.clr st.shares pos.ticker = _
      exact dcaStep_single pos cfg day st.clr st.shares hday hpos
    · show (priceStep drift diffusion [pos]
          (dcaStep [pos] [(pos.ticker, cfg)] day st.clr st.shares) st.clr st.g).2.1
            pos.ticker = _
      unfold priceStep
      simp only [List.foldl_cons, List.foldl_nil, Rng.next]
      simp
  · intro random_seed φ g
    have hDA : dictFromPositions [⟨"A", 1000, 0, 100⟩]
        (fun p => (p.return_pct / 100 - 0.5 * (0 : ℝ) ^ 2) * (1 / 252)) "A" = 0 := by
      simp [dictFromPositions, List.find?]
    have hFA : dictFromPositions [⟨"A", 1000, 0, 100⟩]
        (fun _ => (0 : ℝ) * Real.sqrt (1 / 252)) "A" = 0 := by
      simp [dictFromPositions, List.find?]
    have hShA : dictFromPositions [⟨"A", 1000, 0, 100⟩] (fun p => p.shares) "A"
        = ((10 + (1 - 1) / 30 : ℕ) : ℝ) := by
      simp [dictFromPositions, List.find?, Position.shares]
      norm_num
    have hpath := simDays_scenario
      (dictFromPositions [⟨"A", 1000, 0, 100⟩]
        (fun p => (p.return_pct / 100 - 0.5 * (0 : ℝ) ^ 2) * (1 / 252)))
      (dictFromPositions [⟨"A", 1000, 0, 100⟩]
        (fun _ => (0 : ℝ) * Real.sqrt (1 / 252)))
      hDA hFA 60 1
      ⟨fun _ => 0, dictFromPositions [⟨"A", 1000, 0, 100⟩] (fun p => p.shares),
        reseed φ random_seed g⟩
      rfl hShA (by norm_num) (by norm_num)
    have hunf : (simulate_portfolio_growth_internal [⟨"A", 1000, 0, 100⟩] 0 60 1
        random_seed [("A", ⟨100, 30⟩)] φ g).1
        = ([(([⟨"A", 1000, 0, 100⟩] : List Position).map (fun p => p.value)).sum
            :: (simDaysAux [⟨"A", 1000, 0, 100⟩] [("A", ⟨100, 30⟩)]
                (dictFromPositions [⟨"A", 1000, 0, 100⟩]
                  (fun p => (p.return_pct / 100 - 0.5 * (0 : ℝ) ^ 2) * (1 / 252)))
                (dictFromPositions [⟨"A", 1000, 0, 100⟩]
                  (fun _ => (0 : ℝ) * Real.sqrt (1 / 252)))
                (timePoints 60) 60 1
                ⟨fun _ => 0,
                  dictFromPositions [⟨"A", 1000, 0, 100⟩] (fun p => p.shares),
                  reseed φ random_seed g⟩).1],
          timePoints 60) := rfl
    have hsum : (([⟨"A", 1000, 0, 100⟩] : List Position).map (fun p => p.value)).sum
        = (1000 : ℝ) := by simp
    have hmain : (simulate_portfolio_growth_internal [⟨"A", 1000, 0, 100⟩] 0 60 1
        random_seed [("A", ⟨100, 30⟩)] φ g).1
        = ([(1000 : ℝ) :: (List.range 60).map
              (fun k => ((10 + (k + 1) / 30 : ℕ) : ℝ) * 100)], List.range 61) := by
      rw [hunf, hpath.1, hsum, timePoints_60]
      have hf : (List.range 60).map (fun k => ((10 + (1 + k) / 30 : ℕ) : ℝ) * 100)
          = (List.range 60).map (fun k => ((10 + (k + 1) / 30 : ℕ) : ℝ) * 100) := by
        apply List.map_congr_left
        intro k _
        rw [show 1 + k = k + 1 from by omega]
      rw [hf]
    refine ⟨hmain, ?_, ?_⟩
    · rw [hmain]
      simp only [List.headD_cons]
      rw [show (60 : ℕ) = 59 + 1 from rfl, List.getD_cons_succ]
      have h59 : 59 < ((List.range 60).map
          (fun k => ((10 + (k + 1) / 30 : ℕ) : ℝ) * 100)).length := by simp
      rw [List.getD_eq_getElem _ _ h59]
      simp only [List.getElem_map, List.getElem_range]
      norm_num
    · rw [simOnePath_snd, hpath.2.2]
      norm_num

/-- Witness for C1: the general buy-pricing part applied at day 30 with
zero accumulated log-return, and the scenario part at seed `none` and the
all-zero stream family. -/
theorem C1_dca_pricing_and_scenario_witness :
    ((dayStep [⟨"A", 1000, 0, 100⟩] [("A", ⟨100, 30⟩)] (fun _ => 0) (fun _ => 0) 30
        ⟨fun _ => 0, fun _ => 10, ⟨fun _ => 0, 0⟩⟩).2.shares "A"
      = 10 + 100 / (100 * Real.exp 0))
    ∧ (simulate_portfolio_growth_internal [⟨"A", 1000, 0, 100⟩] 0 60 1 none
          [("A", ⟨100, 30⟩)] (fun _ _ => 0) ⟨fun _ => 0, 0⟩).1
        = ([(1000 : ℝ) :: (List.range 60).map
              (fun k => ((10 + (k + 1) / 30 : ℕ) : ℝ) * 100)], List.range 61) :=
  ⟨(C1_dca_pricing_and_scenario.1 ⟨"A", 1000, 0, 100⟩ ⟨100, 30⟩ (fun _ => 0)
      (fun _ => 0) 30 ⟨fun _ => 0, fun _ => 10, ⟨fun _ => 0, 0⟩⟩ (by norm_num)
      (by positivity)).1,
   (C1_dca_pricing_and_scenario.2 none (fun _ _ => 0) ⟨fun _ => 0, 0⟩).1⟩

end PortfolioPlatform
